import Mathlib

/-!
Verification of the gateway-pro reverse-proxy core against its specification.

The Go sources are shallowly embedded: pure state is carried explicitly,
`time.Time` / `time.Duration` values are integers in nanoseconds (for the
circuit breaker) or exact rationals in seconds (for the token-bucket limiter,
whose `float64` arithmetic is modelled by exact rational arithmetic), and
fallible operations return `Option` error values exactly as the Go methods
return `error`.
-/

namespace GatewayPro

/-! ## internal/circuitbreaker

Embedding of `internal/circuitbreaker`.  Time is `Int` nanoseconds, matching
the Go `time.Duration`; each method that reads `time.Now()` takes `now : Int`
explicitly. -/

namespace circuitbreaker

/-- `config.CircuitBreakerConfig` (internal/config).  The Go fields are `int`;
they are only meaningful non-negative, and `circuitbreaker.New` replaces a
zero by the documented default. -/
structure CircuitBreakerConfig where
  failureThreshold : Nat
  minRequests : Nat
  openDurationSeconds : Nat
  halfOpenRequests : Nat
deriving DecidableEq, Repr

/-- Go `state` enumeration of the breaker. -/
inductive State where
  | stateClosed
  | stateOpen
  | stateHalfOpen
deriving DecidableEq, Repr

/-- One `(timestamp, success)` entry of the rolling window (`observation`). -/
structure Observation where
  obsAt : Int
  success : Bool
deriving DecidableEq, Repr

/-- `time.Second` in nanoseconds. -/
def second : Int := 1000000000

/-- `rollingWindow = 10 * time.Second`. -/
def rollingWindow : Int := 10 * second

/-- The mutable fields of `circuitbreaker.Breaker` (the mutex is concurrency
plumbing and has no sequential content). -/
structure Breaker where
  cfg : CircuitBreakerConfig
  state : State
  openAt : Int
  window : List Observation
  halfOpenTotal : Nat
  halfOpenFailures : Nat
deriving DecidableEq, Repr

/-- `circuitbreaker.New` on a non-nil config: apply the documented defaults
for zero fields and start Closed with an empty window. -/
def Breaker.new (cfg : CircuitBreakerConfig) : Breaker :=
  let cfg : CircuitBreakerConfig :=
    { minRequests := if cfg.minRequests = 0 then 20 else cfg.minRequests
      failureThreshold := if cfg.failureThreshold = 0 then 50 else cfg.failureThreshold
      openDurationSeconds := if cfg.openDurationSeconds = 0 then 30 else cfg.openDurationSeconds
      halfOpenRequests := if cfg.halfOpenRequests = 0 then 5 else cfg.halfOpenRequests }
  { cfg := cfg, state := .stateClosed, openAt := 0, window := [],
    halfOpenTotal := 0, halfOpenFailures := 0 }

/-- `circuitbreaker.New` including the nil-config case (`New` returns `nil`,
and every method is a no-op on a nil receiver). -/
def newBreaker : Option CircuitBreakerConfig → Option Breaker
  | none => none
  | some cfg => some (Breaker.new cfg)

/-- `Breaker.transitionTo`: set the state, then per-state bookkeeping
(`openAt`/window clear on Open, probe-counter reset on HalfOpen, window clear
on Closed).  `now` stands for the `time.Now()` read in the Open branch. -/
def Breaker.transitionTo (b : Breaker) (s : State) (now : Int) : Breaker :=
  let b := { b with state := s }
  let b := if s = .stateOpen then { b with openAt := now, window := [] } else b
  let b := if s = .stateHalfOpen then { b with halfOpenTotal := 0, halfOpenFailures := 0 } else b
  if s = .stateClosed then { b with window := [] } else b

/-- `Breaker.record`: append the observation, then drop the leading entries
strictly older than `now - rollingWindow` (the Go loop advances `i` while
`window[i].at.Before(cutoff)`). -/
def Breaker.record (b : Breaker) (now : Int) (success : Bool) : Breaker :=
  let w := b.window ++ [⟨now, success⟩]
  let cutoff := now - rollingWindow
  { b with window := w.dropWhile (fun o => o.obsAt < cutoff) }

/-- `Breaker.maybeTrip`: with at least `minRequests` observations, trip to
Open when `failures*100/total ≥ failureThreshold` (integer division). -/
def Breaker.maybeTrip (b : Breaker) (now : Int) : Breaker :=
  let total := b.window.length
  if total < b.cfg.minRequests then b
  else
    let failures := (b.window.filter (fun o => !o.success)).length
    let pct := failures * 100 / total
    if pct ≥ b.cfg.failureThreshold then b.transitionTo .stateOpen now else b

/-- The only error `Allow` can return (`ErrCircuitOpen`). -/
inductive CBErr where
  | errCircuitOpen
deriving DecidableEq, Repr

/-- `Breaker.Allow`: Closed admits; Open admits (moving to HalfOpen) once
`time.Since(openAt)` exceeds `OpenDurationSeconds`, else denies; HalfOpen
admits while `halfOpenTotal < HalfOpenRequests`, incrementing it. -/
def Breaker.Allow (b : Breaker) (now : Int) : Option CBErr × Breaker :=
  match b.state with
  | .stateClosed => (none, b)
  | .stateOpen =>
    if now - b.openAt > (b.cfg.openDurationSeconds : Int) * second then
      (none, b.transitionTo .stateHalfOpen now)
    else
      (some .errCircuitOpen, b)
  | .stateHalfOpen =>
    if b.halfOpenTotal < b.cfg.halfOpenRequests then
      (none, { b with halfOpenTotal := b.halfOpenTotal + 1 })
    else
      (some .errCircuitOpen, b)

/-- `Breaker.RecordSuccess`: Closed records a success observation; HalfOpen
closes the circuit when `halfOpenTotal - halfOpenFailures ≥ HalfOpenRequests`
(Go `int` subtraction, hence the `Int` cast); Open ignores the call. -/
def Breaker.RecordSuccess (b : Breaker) (now : Int) : Breaker :=
  match b.state with
  | .stateClosed => b.record now true
  | .stateHalfOpen =>
    if (b.halfOpenTotal : Int) - (b.halfOpenFailures : Int) ≥ (b.cfg.halfOpenRequests : Int) then
      b.transitionTo .stateClosed now
    else b
  | .stateOpen => b

/-- `Breaker.RecordFailure`: Closed records a failure then `maybeTrip`;
HalfOpen bumps `halfOpenFailures` and reopens; Open ignores the call. -/
def Breaker.RecordFailure (b : Breaker) (now : Int) : Breaker :=
  match b.state with
  | .stateClosed => (b.record now false).maybeTrip now
  | .stateHalfOpen =>
    ({ b with halfOpenFailures := b.halfOpenFailures + 1 }).transitionTo .stateOpen now
  | .stateOpen => b

/-- Iterated `RecordFailure` at a fixed instant, for the boundary scenario of
§8 of the spec. -/
def failN (b : Breaker) (now : Int) : Nat → Breaker
  | 0 => b
  | n + 1 => (failN b now n).RecordFailure now

/-- The default breaker configuration of the spec (threshold 50, min 20, open 30 s,
half-open 5). -/
def defaultCBConfig : CircuitBreakerConfig :=
  { failureThreshold := 50, minRequests := 20, openDurationSeconds := 30, halfOpenRequests := 5 }

def demoOpenBreaker : Breaker :=
  { cfg := defaultCBConfig, state := .stateOpen, openAt := 0, window := [],
    halfOpenTotal := 0, halfOpenFailures := 0 }

def demoHalfOpenBreaker : Breaker :=
  { cfg := defaultCBConfig, state := .stateHalfOpen, openAt := 0, window := [],
    halfOpenTotal := 2, halfOpenFailures := 0 }

end circuitbreaker

/-! ## internal/ratelimiter

Embedding of `internal/ratelimiter`.  The `float64` token arithmetic and
`time.Time`/`time.Duration` values of the local limiters are modelled as exact
rationals measured in seconds; the Redis limiter works in integer
milliseconds exactly as the Go code does.  Each limiter keeps one lazily
created bucket per derived key, and calls for a single key are serialised
under the bucket mutex; the embedding therefore tracks the bucket of one
fixed key, with `now` passed explicitly for each `time.Now()` read. -/

namespace ratelimiter

/-- `ErrRateLimited`: the deny error, carrying `RetryAfter` in (exact
rational) seconds. -/
structure ErrRateLimited where
  retryAfter : ℚ
deriving DecidableEq, Repr

/-- The per-key state of `localTokenBucket` (`tbBucket`). -/
structure tbBucket where
  tokens : ℚ
  lastFill : ℚ
deriving DecidableEq, Repr

/-- The configuration part of `localTokenBucket`: `rate` is the Go `float64`
refill rate (tokens per second), `burst` the Go `int` burst. -/
structure localTokenBucket where
  rate : ℚ
  burst : Int
deriving DecidableEq, Repr

/-- `localTokenBucket.getOrCreate` on a miss: a fresh bucket holds `burst`
tokens and `lastFill = now`. -/
def tbNewBucket (l : localTokenBucket) (now : ℚ) : tbBucket :=
  { tokens := (l.burst : ℚ), lastFill := now }

/-- `localTokenBucket.Allow` for one key: refill
`tokens := min(burst, tokens + elapsed*rate)`, stamp `lastFill := now`, then
deny with `retry_after = (1 - tokens)/rate` when `tokens < 1`, else take one
token. -/
def tbAllow (l : localTokenBucket) (b : tbBucket) (now : ℚ) :
    Option ErrRateLimited × tbBucket :=
  let elapsed := now - b.lastFill
  let tokens := min (l.burst : ℚ) (b.tokens + elapsed * l.rate)
  if tokens < 1 then
    (some { retryAfter := (1 - tokens) / l.rate }, { tokens := tokens, lastFill := now })
  else
    (none, { tokens := tokens - 1, lastFill := now })

/-- `Allow` iterated over a list of call instants for one key, collecting the
per-call results. -/
def tbAllowN (l : localTokenBucket) : tbBucket → List ℚ → tbBucket × List (Option ErrRateLimited)
  | b, [] => (b, [])
  | b, t :: ts =>
    let (res, b1) := tbAllow l b t
    let (bf, rs) := tbAllowN l b1 ts
    (bf, res :: rs)

/-- The per-key state of `localSlidingWindow` (`swBucket`): the ordered queue
of admission timestamps. -/
structure swBucket where
  timestamps : List ℚ
deriving DecidableEq, Repr

/-- The configuration part of `localSlidingWindow`: `rate` is the Go `int`
admission budget (meaningful non-negative), `window` the window duration in
seconds. -/
structure localSlidingWindow where
  rate : Nat
  window : ℚ
deriving DecidableEq, Repr

/-- `localSlidingWindow.Allow` for one key: drop the leading timestamps
strictly before `now - window` (the Go loop advances `i` while
`timestamps[i].Before(cutoff)`), then deny with
`retry_after = (oldest + window) - now` when at least `rate` remain, else
append `now`.  `headD` stands for the Go `timestamps[0]`, reached only when
the queue is non-empty because `rate ≥ 1` in any validated config. -/
def swAllow (l : localSlidingWindow) (b : swBucket) (now : ℚ) :
    Option ErrRateLimited × swBucket :=
  let cutoff := now - l.window
  let ts := b.timestamps.dropWhile (fun t => t < cutoff)
  if l.rate ≤ ts.length then
    (some { retryAfter := ts.headD 0 + l.window - now }, { timestamps := ts })
  else
    (none, { timestamps := ts ++ [now] })

/-- `Allow` iterated over a list of call instants for one key. -/
def swRun (l : localSlidingWindow) : swBucket → List ℚ → swBucket × List (Option ErrRateLimited)
  | b, [] => (b, [])
  | b, t :: ts =>
    let (res, b1) := swAllow l b t
    let (bf, rs) := swRun l b1 ts
    (bf, res :: rs)

/-- The instants of the trace that were admitted. -/
def swAdmitted (l : localSlidingWindow) : swBucket → List ℚ → List ℚ
  | _, [] => []
  | b, t :: ts =>
    let (res, b1) := swAllow l b t
    match res with
    | none => t :: swAdmitted l b1 ts
    | some _ => swAdmitted l b1 ts

/-- The configuration part of `redisLimiter`: the admission budget and the
window in milliseconds (`rl.window.Milliseconds()`). -/
structure redisLimiter where
  rate : Int
  windowMs : Int
deriving DecidableEq, Repr

/-- `redisLimiter.Allow`: the Redis script round trip either fails (context
timeout after 50 ms or transport error, carried as an arbitrary Go error
string) or returns the `{allowed, oldest_ms}` reply of the Lua script.  A
failed round trip admits — fail open; a `{0, oldest}` reply denies with
`retry_after = (oldest + window) - now` milliseconds. -/
def redisAllow (rl : redisLimiter) (nowMs : Int) (res : Except String (Int × Int)) :
    Option ErrRateLimited :=
  match res with
  | .error _ => none
  | .ok (allowed, oldestMs) =>
    if allowed = 0 then
      some { retryAfter := ((oldestMs + rl.windowMs - nowMs : Int) : ℚ) / 1000 }
    else
      none

/-- A concrete token bucket (rate 10 per second, burst 5) for witnesses. -/
def demoTB : localTokenBucket := { rate := 10, burst := 5 }

/-- A concrete sliding window (2 per 10 s) for the witness. -/
def demoSW : localSlidingWindow := { rate := 2, window := 10 }

end ratelimiter

/-! ## internal/loadbalancer

Embedding of `internal/loadbalancer`.  A `Backend` carries the mutable
atomic fields (`alive`, `inflight`) as plain values; the weighted balancer
wraps each backend with its smooth-round-robin `current` counter. -/

namespace loadbalancer

/-- `config.BackendConfig`. -/
structure BackendConfig where
  url : String
  weight : Int
deriving DecidableEq, Repr

/-- `loadbalancer.Backend`: URL, weight, atomic `alive` flag and `inflight`
counter. -/
structure Backend where
  url : String
  weight : Int
  alive : Bool
  inflight : Int
deriving DecidableEq, Repr

/-- `buildBackends`: fresh records with `alive` stored `true` (and the Go
zero value `0` for `inflight`). -/
def buildBackends (cfgs : List BackendConfig) : List Backend :=
  cfgs.map (fun c => { url := c.url, weight := c.weight, alive := true, inflight := 0 })

/-- `wBackend`: a backend together with its signed `current` counter. -/
structure wBackend where
  backend : Backend
  current : Int
deriving DecidableEq, Repr

/-- `newWeighted`: wrap each backend with `current = 0` (the Go zero
value). -/
def newWeighted (bs : List Backend) : List wBackend :=
  bs.map (fun b => { backend := b, current := 0 })

/-- `ErrNoHealthyBackend`. -/
inductive LBErr where
  | errNoHealthyBackend
deriving DecidableEq, Repr

/-- One accumulator update of the scans below: adopt `x` (at position `idx`)
when there is no candidate yet or its key is strictly greater than the
candidate key — the Go `if best == nil || b.current > best.current`
(respectively `if matched == nil || len(rt.prefix) > len(matched.prefix)`). -/
def firstMaxStep {α : Type} {β : Type} [LinearOrder β] (p : α → Bool) (k : α → β)
    (x : α) (idx : Nat) : Option (Nat × α) → Option (Nat × α)
  | none => some (idx, x)
  | some (bi, bx) => if k x > k bx then some (idx, x) else some (bi, bx)

/-- Generic left-to-right scan keeping the first element (with its position)
among those satisfying `p` whose key is maximal; a later element replaces the
accumulator only when its key is strictly greater. -/
def firstMaxFold {α : Type} {β : Type} [LinearOrder β] (p : α → Bool) (k : α → β) :
    List α → Option (Nat × α) → Nat → Option (Nat × α)
  | [], acc, _ => acc
  | x :: xs, acc, idx =>
    if p x then firstMaxFold p k xs (firstMaxStep p k x idx acc) (idx + 1)
    else firstMaxFold p k xs acc (idx + 1)

/-- The loop of `weighted.Next`: walk the backends; for each alive one add
its weight to `current` and to `total`, and keep the first backend (with its
position) whose updated `current` is strictly greatest so far.  Returns the
updated list, the accumulated total and the best `(index, backend)`. -/
def weightedLoop : List wBackend → Int → Option (Nat × wBackend) → Nat →
    List wBackend × Int × Option (Nat × wBackend)
  | [], total, best, _ => ([], total, best)
  | b :: rest, total, best, idx =>
    if b.backend.alive then
      let b1 : wBackend := { b with current := b.current + b.backend.weight }
      let total1 := total + b.backend.weight
      let best1 : Option (Nat × wBackend) :=
        firstMaxStep (fun c => c.backend.alive) (fun c => c.current) b1 idx best
      let (rest1, total2, best2) := weightedLoop rest total1 best1 (idx + 1)
      (b1 :: rest1, total2, best2)
    else
      let (rest1, total2, best2) := weightedLoop rest total best (idx + 1)
      (b :: rest1, total2, best2)

/-- In-place update of the list cell the Go code mutates through the `best`
pointer. -/
def modifyIdx : List wBackend → Nat → (wBackend → wBackend) → List wBackend
  | [], _, _ => []
  | x :: xs, 0, f => f x :: xs
  | x :: xs, n + 1, f => x :: modifyIdx xs n f

/-- `weighted.Next`: run the loop from zero accumulators; with no alive
backend fail with `ErrNoHealthyBackend`, else subtract the accumulated total
from the selected `current` and return the selection (by its position in the
list, standing for the returned `*Backend`). -/
def weightedNext (bs : List wBackend) : Except LBErr Nat × List wBackend :=
  let (bs1, total, best) := weightedLoop bs 0 none 0
  match best with
  | none => (.error .errNoHealthyBackend, bs1)
  | some (i, _) => (.ok i, modifyIdx bs1 i (fun b => { b with current := b.current - total }))

/-- The balancer state after `n` calls of `Next`. -/
def weightedStateN (bs : List wBackend) : Nat → List wBackend
  | 0 => bs
  | n + 1 => (weightedNext (weightedStateN bs n)).2

/-- The selection made by the `(n+1)`-th call of `Next`. -/
def weightedSelN (bs : List wBackend) (n : Nat) : Except LBErr Nat :=
  (weightedNext (weightedStateN bs n)).1

/-- Does a `Next` outcome select position `i`? -/
def selEq : Except LBErr Nat → Nat → Bool
  | .ok k, i => k == i
  | .error _, _ => false

/-- How often position `i` is selected in the 7-call window starting at call
`j`. -/
def countSel (bs : List wBackend) (j i : Nat) : Nat :=
  ((List.range 7).map (fun d => weightedSelN bs (j + d))).countP (fun e => selEq e i)

/-- The spec scenario: three always-alive backends of weights 5, 1, 1 with
counters starting at 0. -/
def demoWeighted : List wBackend :=
  newWeighted (buildBackends
    [{ url := "http://a", weight := 5 }, { url := "http://b", weight := 1 },
     { url := "http://c", weight := 1 }])

/-- Spec-side description of the update pass of `weighted.Next`: every alive
backend gets its weight added to `current`. -/
def updCurrents (bs : List wBackend) : List wBackend :=
  bs.map (fun b => if b.backend.alive then { b with current := b.current + b.backend.weight } else b)

/-- Spec-side description of the accumulated total: the sum of the alive
weights. -/
def aliveTotal (bs : List wBackend) : Int :=
  ((bs.filter (fun b => b.backend.alive)).map (fun b => b.backend.weight)).sum

/-- A single dead backend, to witness the no-healthy-backend branch. -/
def demoDead : List wBackend :=
  [{ backend := { url := "http://a", weight := 5, alive := false, inflight := 0 }, current := 0 }]

end loadbalancer

/-! ## internal/proxy

Embedding of the route construction, reload and dispatch of
`internal/proxy`.  A `Route` carries the state `buildRoute` creates: the
balancer is represented by its algorithm name and its `Backend` records
(every algorithm wraps the same `buildBackends` output), the rate limiter by
its configuration (its per-key bucket maps start empty), and the breaker map
as an association list from backend URL to the (possibly nil) `Breaker`.
Health-checker handles carry no dispatch-relevant state and are omitted;
`Reload` uses the old routes only to stop checkers of removed prefixes. -/

namespace proxy

open circuitbreaker loadbalancer

/-- `config.RateLimitConfig`. -/
structure RateLimitConfig where
  algorithm : String
  rate : Int
  burst : Int
  window : String
  keyBy : String
  redisURL : String
deriving DecidableEq, Repr

/-- The fields of `config.RouteConfig` that `buildRoute` reads.  The Go
field `PathPrefix` is named `pathPfx` here. -/
structure RouteConfig where
  pathPfx : String
  backends : List BackendConfig
  lbAlgorithm : String
  rateLimit : Option RateLimitConfig
  circuitBreaker : Option CircuitBreakerConfig
  timeoutSeconds : Int
  strip : Bool
deriving DecidableEq, Repr

/-- The `route` struct (the Go field `prefix` is named `pfx`). -/
structure Route where
  pfx : String
  strip : Bool
  timeoutSeconds : Int
  lbAlgorithm : String
  lbBackends : List Backend
  rl : Option RateLimitConfig
  breakers : List (String × Option Breaker)
deriving DecidableEq, Repr

/-- `buildRoute`: a fresh balancer over `buildBackends`, the rate limiter
from the config (`ratelimiter.New`; its window-string parse error is outside
this model since the claims concern validated configs), and one freshly
constructed breaker per backend URL.  Nothing is looked up in any previous
route state. -/
def buildRoute (cfg : RouteConfig) : Route :=
  { pfx := cfg.pathPfx
    strip := cfg.strip
    timeoutSeconds := cfg.timeoutSeconds
    lbAlgorithm := cfg.lbAlgorithm
    lbBackends := buildBackends cfg.backends
    rl := cfg.rateLimit
    breakers := cfg.backends.map (fun b => (b.url, newBreaker cfg.circuitBreaker)) }

/-- `buildRoutes`. -/
def buildRoutes (cfgs : List RouteConfig) : List Route :=
  cfgs.map buildRoute

/-- The `Gateway` route table. -/
structure Gateway where
  routes : List Route
deriving DecidableEq, Repr

/-- `NewGateway`. -/
def NewGateway (cfgs : List RouteConfig) : Gateway :=
  { routes := buildRoutes cfgs }

/-- `Gateway.Reload`: the new routes are built from the new config alone and
swapped in; the old routes are read only to stop the health checkers of
prefixes that disappeared (checker lifecycle carries no dispatch state and
is not modelled). -/
def Gateway.Reload (_gw : Gateway) (cfgs : List RouteConfig) : Gateway :=
  { routes := buildRoutes cfgs }

/-- `strings.HasPrefix path pfx`: is `pfx` a prefix of the character
sequence of `path`? -/
def strHasPfx (pfx path : String) : Bool :=
  pfx.data.isPrefixOf path.data

/-- The longest-prefix-match loop of `Gateway.ServeHTTP`: scan the routes,
keeping the first matching route and replacing it only by a strictly longer
matching prefix. -/
def matchLoop (path : String) : List Route → Option Route → Option Route
  | [], matched => matched
  | rt :: rest, matched =>
    if strHasPfx rt.pfx path then
      match matched with
      | none => matchLoop path rest (some rt)
      | some m =>
        if rt.pfx.length > m.pfx.length then matchLoop path rest (some rt)
        else matchLoop path rest (some m)
    else matchLoop path rest matched

/-- The dispatch outcome of `Gateway.ServeHTTP`: a 404 without invoking any
route handler (so no rate-limit, balancer or breaker action), or delegation
to the matched route handler chain. -/
inductive ServeOutcome where
  | notFound
  | routed (rt : Route)
deriving DecidableEq, Repr

/-- `Gateway.ServeHTTP`: longest-prefix match, then either the 404 early
return or dispatch to the matched route. -/
def Gateway.ServeHTTP (gw : Gateway) (path : String) : ServeOutcome :=
  match matchLoop path gw.routes none with
  | none => .notFound
  | some rt => .routed rt

/-- The `RecordFailure` call through a possibly nil breaker pointer (a nil
receiver is a no-op). -/
def recordFailureOpt : Option Breaker → Int → Option Breaker
  | none, _ => none
  | some b, now => some (b.RecordFailure now)

/-- The `RecordSuccess` call through a possibly nil breaker pointer. -/
def recordSuccessOpt : Option Breaker → Int → Option Breaker
  | none, _ => none
  | some b, now => some (b.RecordSuccess now)

/-- The observable effects of `ReverseProxy.ModifyResponse` on one upstream
response: the breaker after its recorded outcome, the value stored in the
backend `alive` flag, and the `X-Gateway-Backend` response header. -/
structure ResponseEffects where
  breaker : Option Breaker
  alive : Bool
  gatewayBackendHeader : Option String
deriving DecidableEq, Repr

/-- `ModifyResponse`: status ≥ 500 records a breaker failure and marks the
backend dead, any other status records a success and marks it alive; the
`X-Gateway-Backend` header is set to the backend URL on every response. -/
def modifyResponse (cb : Option Breaker) (backendURL : String) (statusCode : Int)
    (now : Int) : ResponseEffects :=
  let (cb1, alive1) :=
    if statusCode ≥ 500 then (recordFailureOpt cb now, false)
    else (recordSuccessOpt cb now, true)
  { breaker := cb1, alive := alive1, gatewayBackendHeader := some backendURL }

/-- A route config for the reload scenario: prefix `/api`, one backend with
weight 2, breaker enabled with the default parameters. -/
def demoRouteCfg : RouteConfig :=
  { pathPfx := "/api", backends := [{ url := "http://a", weight := 2 }],
    lbAlgorithm := "round_robin", rateLimit := none,
    circuitBreaker := some defaultCBConfig, timeoutSeconds := 30, strip := false }

/-- A breaker that tripped Open: 20 consecutive failures from Closed. -/
def trippedBreaker : Breaker :=
  circuitbreaker.failN (Breaker.new defaultCBConfig) 0 20

/-- The gateway built from `demoRouteCfg` after its breaker for
`http://a` tripped Open and the error path marked the backend dead: the
route as `buildRoute` made it, with those two pieces of mutable state
advanced. -/
def demoOldGateway : Gateway :=
  { routes := [{ buildRoute demoRouteCfg with
      lbBackends := [{ url := "http://a", weight := 2, alive := false, inflight := 0 }],
      breakers := [("http://a", some trippedBreaker)] }] }

/-- A two-route gateway for the dispatch witness. -/
def demoGateway : Gateway :=
  NewGateway [demoRouteCfg,
    { pathPfx := "/api/v1", backends := [{ url := "http://b", weight := 1 }],
      lbAlgorithm := "round_robin", rateLimit := none, circuitBreaker := none,
      timeoutSeconds := 30, strip := false }]

end proxy

/-! ## Theorems -/

namespace circuitbreaker

theorem maybeTrip_eq (b : Breaker) (now : Int) :
    b.maybeTrip now =
      if b.cfg.minRequests ≤ b.window.length ∧
         b.cfg.failureThreshold ≤
           (b.window.filter (fun o => !o.success)).length * 100 / b.window.length then
        { b with state := .stateOpen, openAt := now, window := [] }
      else b := by
  unfold Breaker.maybeTrip
  by_cases h1 : b.cfg.minRequests ≤ b.window.length
  · by_cases h2 : b.cfg.failureThreshold ≤
        (b.window.filter (fun o => !o.success)).length * 100 / b.window.length
    · have hc := And.intro h1 h2
      rw [if_neg (Nat.not_lt.mpr h1), if_pos h2, if_pos hc]
      rfl
    · rw [if_neg (Nat.not_lt.mpr h1), if_neg h2, if_neg (fun hc => h2 hc.2)]
  · rw [if_pos (Nat.lt_of_not_le h1), if_neg (fun hc => h1 hc.1)]

/-- Claim C2: in the Closed state, `RecordFailure` appends a failure
observation and evicts observations older than 10 s, then trips to Open
(clearing the window and stamping `openAt := now`) exactly when the evicted
window holds at least `minRequests` observations and
`failures*100/count ≥ failureThreshold` in integer arithmetic; with the
default config (min 20, threshold 50), 19 same-instant failures leave the
breaker Closed and the 20th trips it. -/
theorem claim_C2 (b : Breaker) (now : Int) (hb : b.state = .stateClosed) :
    ((b.record now false).window =
      (b.window ++ [({ obsAt := now, success := false } : Observation)]).dropWhile
        (fun o => o.obsAt < now - rollingWindow)) ∧
    (b.RecordFailure now =
      if b.cfg.minRequests ≤ (b.record now false).window.length ∧
         b.cfg.failureThreshold ≤
           ((b.record now false).window.filter (fun o => !o.success)).length * 100 /
             (b.record now false).window.length then
        { b with state := .stateOpen, openAt := now, window := [] }
      else b.record now false) ∧
    (failN (Breaker.new defaultCBConfig) 0 19).state = .stateClosed ∧
    (failN (Breaker.new defaultCBConfig) 0 20).state = .stateOpen := by
  refine ⟨rfl, ?_, by decide, by decide⟩
  have h : b.RecordFailure now = (b.record now false).maybeTrip now := by
    simp only [Breaker.RecordFailure, hb]
  rw [h, maybeTrip_eq]
  rfl

theorem claim_C2_witness :
    (Breaker.new defaultCBConfig).state = State.stateClosed ∧
    (failN (Breaker.new defaultCBConfig) 0 19).state = State.stateClosed :=
  ⟨by decide, (claim_C2 (Breaker.new defaultCBConfig) 0 (by decide)).2.2.1⟩

/-- Claim C3: in the Open state, `Allow` denies with `ErrCircuitOpen` while
`now - openAt ≤ openDuration`, and the first call strictly after that moves to
HalfOpen with both probe counters reset and admits; `RecordSuccess` and
`RecordFailure` are ignored in Open (no observation accrues, state unchanged). -/
theorem claim_C3 (b : Breaker) (now : Int) (hb : b.state = .stateOpen) :
    (now - b.openAt ≤ (b.cfg.openDurationSeconds : Int) * second →
      b.Allow now = (some .errCircuitOpen, b)) ∧
    ((b.cfg.openDurationSeconds : Int) * second < now - b.openAt →
      b.Allow now =
        (none, { b with state := .stateHalfOpen, halfOpenTotal := 0, halfOpenFailures := 0 })) ∧
    b.RecordSuccess now = b ∧
    b.RecordFailure now = b := by
  refine ⟨fun h => ?_, fun h => ?_, ?_, ?_⟩
  · simp only [Breaker.Allow, hb]
    rw [if_neg (by omega)]
  · simp only [Breaker.Allow, hb, Breaker.transitionTo]
    rw [if_pos (by omega)]
    rfl
  · simp only [Breaker.RecordSuccess, hb]
  · simp only [Breaker.RecordFailure, hb]

theorem claim_C3_witness :
    demoOpenBreaker.Allow (5 * second) = (some CBErr.errCircuitOpen, demoOpenBreaker) ∧
    demoOpenBreaker.RecordSuccess 5 = demoOpenBreaker :=
  ⟨(claim_C3 demoOpenBreaker (5 * second) (by decide)).1 (by decide),
   (claim_C3 demoOpenBreaker 5 (by decide)).2.2.1⟩

/-- Claim C4: in the HalfOpen state, `Allow` admits exactly while
`halfOpenTotal < halfOpenRequests` (incrementing the counter) and denies
otherwise; `RecordFailure` transitions immediately back to Open; and
`RecordSuccess` moves to Closed, clearing the window, exactly when
`halfOpenTotal - halfOpenFailures ≥ halfOpenRequests`. -/
theorem claim_C4 (b : Breaker) (now : Int) (hb : b.state = .stateHalfOpen) :
    (b.halfOpenTotal < b.cfg.halfOpenRequests →
      b.Allow now = (none, { b with halfOpenTotal := b.halfOpenTotal + 1 })) ∧
    (b.cfg.halfOpenRequests ≤ b.halfOpenTotal →
      b.Allow now = (some .errCircuitOpen, b)) ∧
    (b.RecordFailure now =
      { b with state := .stateOpen, openAt := now, window := [],
               halfOpenFailures := b.halfOpenFailures + 1 }) ∧
    ((b.cfg.halfOpenRequests : Int) ≤ (b.halfOpenTotal : Int) - (b.halfOpenFailures : Int) →
      b.RecordSuccess now = { b with state := .stateClosed, window := [] }) ∧
    ((b.halfOpenTotal : Int) - (b.halfOpenFailures : Int) < (b.cfg.halfOpenRequests : Int) →
      b.RecordSuccess now = b) := by
  refine ⟨fun h => ?_, fun h => ?_, ?_, fun h => ?_, fun h => ?_⟩
  · simp only [Breaker.Allow, hb]
    rw [if_pos h]
  · simp only [Breaker.Allow, hb]
    rw [if_neg (Nat.not_lt.mpr h)]
  · simp only [Breaker.RecordFailure, hb, Breaker.transitionTo]
    rfl
  · simp only [Breaker.RecordSuccess, hb, Breaker.transitionTo]
    rw [if_pos h]
    rfl
  · simp only [Breaker.RecordSuccess, hb]
    rw [if_neg (by omega)]

theorem claim_C4_witness :
    demoHalfOpenBreaker.Allow 7 =
      (none, { demoHalfOpenBreaker with halfOpenTotal := 3 }) ∧
    demoHalfOpenBreaker.RecordSuccess 7 = demoHalfOpenBreaker :=
  ⟨(claim_C4 demoHalfOpenBreaker 7 (by decide)).1 (by decide),
   (claim_C4 demoHalfOpenBreaker 7 (by decide)).2.2.2.2 (by decide)⟩

end circuitbreaker

namespace ratelimiter

/-- Claim C9: when the Redis round trip fails for any reason (context timeout
or transport error), `redisLimiter.Allow` returns admission (nil error): a
backing-store outage never produces a deny. -/
theorem claim_C9 (rl : redisLimiter) (nowMs : Int) (e : String) :
    redisAllow rl nowMs (.error e) = none := rfl

theorem tbAllowN_append (l : localTokenBucket) (ts1 : List ℚ) :
    ∀ (b : tbBucket) (ts2 : List ℚ),
      tbAllowN l b (ts1 ++ ts2) =
        ((tbAllowN l (tbAllowN l b ts1).1 ts2).1,
         (tbAllowN l b ts1).2 ++ (tbAllowN l (tbAllowN l b ts1).1 ts2).2) := by
  induction ts1 with
  | nil => intro b ts2; simp [tbAllowN]
  | cons t ts ih => intro b ts2; simp [tbAllowN, ih]

theorem tbBurst_state (l : localTokenBucket) (t0 : ℚ) :
    ∀ (k : Nat) (X : ℚ), X ≤ (l.burst : ℚ) → (k : ℚ) ≤ X →
      tbAllowN l { tokens := X, lastFill := t0 } (List.replicate k t0) =
        ({ tokens := X - k, lastFill := t0 }, List.replicate k none) := by
  intro k
  induction k with
  | zero => intro X hXb hkX; simp [tbAllowN]
  | succ k ih =>
    intro X hXb hkX
    have hcast : ((k + 1 : Nat) : ℚ) = (k : ℚ) + 1 := by push_cast; ring
    rw [hcast] at hkX
    have htok : min (l.burst : ℚ) (X + (t0 - t0) * l.rate) = X := by
      rw [show X + (t0 - t0) * l.rate = X by ring]
      exact min_eq_right hXb
    have hone : ¬ min (l.burst : ℚ) (X + (t0 - t0) * l.rate) < 1 := by
      rw [htok]
      have : (0 : ℚ) ≤ (k : ℚ) := Nat.cast_nonneg k
      linarith
    have hstep : tbAllow l { tokens := X, lastFill := t0 } t0 =
        (none, { tokens := X - 1, lastFill := t0 }) := by
      unfold tbAllow
      rw [if_neg hone, htok]
    rw [List.replicate_succ]
    simp only [tbAllowN, hstep]
    rw [ih (X - 1) (by linarith) (by linarith)]
    refine Prod.ext ?_ ?_
    · simp only
      congr 1
      push_cast
      ring
    · simp [List.replicate_succ]

/-- Claim C5: one `Allow` of the local token bucket refills
`tokens := min(burst, tokens + elapsed*rate)` and stamps `lastFill := now`,
then denies with `retry_after = (1 - tokens)/rate` exactly when `tokens < 1`
and otherwise takes one token; from a fresh bucket (`tokens = burst`), `burst`
same-instant requests all admit and the next one is denied with
`retry_after = 1/rate`. -/
theorem claim_C5 (l : localTokenBucket) (b : tbBucket) (now t0 : ℚ)
    (hrate : 0 < l.rate) (hburst : 0 ≤ l.burst) :
    ((tbAllow l b now).2.lastFill = now) ∧
    (min (l.burst : ℚ) (b.tokens + (now - b.lastFill) * l.rate) < 1 →
      tbAllow l b now =
        (some { retryAfter :=
                  (1 - min (l.burst : ℚ) (b.tokens + (now - b.lastFill) * l.rate)) / l.rate },
         { tokens := min (l.burst : ℚ) (b.tokens + (now - b.lastFill) * l.rate),
           lastFill := now })) ∧
    (1 ≤ min (l.burst : ℚ) (b.tokens + (now - b.lastFill) * l.rate) →
      tbAllow l b now =
        (none, { tokens := min (l.burst : ℚ) (b.tokens + (now - b.lastFill) * l.rate) - 1,
                 lastFill := now })) ∧
    (tbAllowN l (tbNewBucket l t0) (List.replicate l.burst.toNat t0)).2 =
      List.replicate l.burst.toNat none ∧
    (tbAllowN l (tbNewBucket l t0) (List.replicate (l.burst.toNat + 1) t0)).2 =
      List.replicate l.burst.toNat none ++ [some { retryAfter := 1 / l.rate }] := by
  have hburstQ : ((l.burst.toNat : ℚ)) = ((l.burst : ℚ)) := by
    rw [show ((l.burst.toNat : ℚ)) = (((l.burst.toNat : Int) : ℚ)) by push_cast; ring,
      Int.toNat_of_nonneg hburst]
  have hmain := tbBurst_state l t0 l.burst.toNat (l.burst : ℚ) le_rfl (le_of_eq hburstQ)
  refine ⟨?_, fun h => ?_, fun h => ?_, ?_, ?_⟩
  · simp only [tbAllow]
    split <;> rfl
  · unfold tbAllow
    rw [if_pos h]
  · unfold tbAllow
    rw [if_neg (not_lt.mpr h)]
  · rw [show tbNewBucket l t0 = { tokens := (l.burst : ℚ), lastFill := t0 } from rfl, hmain]
  · rw [show tbNewBucket l t0 = { tokens := (l.burst : ℚ), lastFill := t0 } from rfl]
    rw [List.replicate_succ']
    rw [tbAllowN_append, hmain]
    have hzero : (l.burst : ℚ) - (l.burst.toNat : ℚ) = 0 := by rw [hburstQ]; ring
    have hlast : tbAllow l { tokens := (l.burst : ℚ) - (l.burst.toNat : ℚ), lastFill := t0 } t0 =
        (some { retryAfter := 1 / l.rate },
         { tokens := (l.burst : ℚ) - (l.burst.toNat : ℚ), lastFill := t0 }) := by
      simp only [tbAllow, hzero]
      rw [show (0 : ℚ) + (t0 - t0) * l.rate = 0 by ring,
        min_eq_right (by exact_mod_cast hburst : (0 : ℚ) ≤ (l.burst : ℚ))]
      rw [if_pos (by norm_num)]
      norm_num
    simp only [tbAllowN, hlast]

theorem claim_C5_witness :
    (tbAllowN demoTB (tbNewBucket demoTB 0) (List.replicate 6 0)).2 =
      List.replicate 5 none ++ [some { retryAfter := 1 / 10 }] :=
  (claim_C5 demoTB (tbNewBucket demoTB 0) 0 0 (by norm_num [demoTB]) (by norm_num [demoTB])).2.2.2.2

theorem dropWhile_lt_sorted (c : ℚ) :
    ∀ l : List ℚ, l.Sorted (· ≤ ·) →
      l.dropWhile (fun t => t < c) = l.filter (fun t => c ≤ t)
  | [], _ => rfl
  | x :: xs, h => by
    rcases List.sorted_cons.mp h with ⟨hx, hxs⟩
    by_cases hxc : x < c
    · rw [List.dropWhile_cons_of_pos (by simpa using hxc),
        List.filter_cons_of_neg (by simpa using not_le.mpr hxc)]
      exact dropWhile_lt_sorted c xs hxs
    · rw [List.dropWhile_cons_of_neg (by simpa using hxc),
        List.filter_cons_of_pos (by simpa using not_lt.mp hxc)]
      congr 1
      symm
      rw [List.filter_eq_self]
      intro a ha
      simpa using le_trans (not_lt.mp hxc) (hx a ha)

theorem length_filter_mono {p q : ℚ → Bool} :
    ∀ l : List ℚ, (∀ a ∈ l, p a = true → q a = true) →
      (l.filter p).length ≤ (l.filter q).length
  | [], _ => le_refl 0
  | x :: xs, h => by
    have hxs := fun a ha => h a (List.mem_cons_of_mem x ha)
    by_cases hp : p x = true
    · rw [List.filter_cons_of_pos hp, List.filter_cons_of_pos (h x (List.mem_cons_self x xs) hp)]
      simpa using length_filter_mono xs hxs
    · rw [List.filter_cons_of_neg (by simpa using hp)]
      calc (xs.filter p).length ≤ (xs.filter q).length := length_filter_mono xs hxs
        _ ≤ ((x :: xs).filter q).length := by
            by_cases hq : q x = true
            · rw [List.filter_cons_of_pos hq]; simp
            · rw [List.filter_cons_of_neg (by simpa using hq)]

/-- Inductive invariant of one sliding-window bucket: after the last call at
instant `T`, the accumulated list `A` of admitted instants is sorted, bounded
by `T`, the queue holds exactly the admitted instants of the last `window`
seconds, and every window-length interval contains at most `rate` admitted
instants. -/
structure SWInv (l : localSlidingWindow) (b : swBucket) (A : List ℚ) (T : ℚ) : Prop where
  sortedA : A.Sorted (· ≤ ·)
  leT : ∀ a ∈ A, a ≤ T
  queue : b.timestamps = A.filter (fun a => decide (T - l.window ≤ a))
  bounded : ∀ s : ℚ,
    (A.filter (fun a => decide (s ≤ a) && decide (a ≤ s + l.window))).length ≤ l.rate

theorem swts_eq (l : localSlidingWindow) (b : swBucket) (A : List ℚ) (T now : ℚ)
    (inv : SWInv l b A T) (hT : T ≤ now) :
    b.timestamps.dropWhile (fun t => t < now - l.window) =
      A.filter (fun a => decide (now - l.window ≤ a)) := by
  have hsorted : b.timestamps.Sorted (· ≤ ·) := by
    rw [inv.queue]
    exact List.Pairwise.sublist (List.filter_sublist _) inv.sortedA
  rw [dropWhile_lt_sorted _ _ hsorted, inv.queue, List.filter_filter]
  apply List.filter_congr
  intro a _
  by_cases h : now - l.window ≤ a
  · have h2 : T - l.window ≤ a := le_trans (by linarith) h
    rw [decide_eq_true h, decide_eq_true h2]
    rfl
  · rw [decide_eq_false h]
    rfl

theorem swInv_admit (l : localSlidingWindow) (b : swBucket) (A : List ℚ) (T now : ℚ)
    (inv : SWInv l b A T) (hT : T ≤ now) (hw : 0 ≤ l.window)
    (hlen : (b.timestamps.dropWhile (fun t => t < now - l.window)).length < l.rate) :
    swAllow l b now =
      (none, { timestamps := b.timestamps.dropWhile (fun t => t < now - l.window) ++ [now] }) ∧
    SWInv l { timestamps := b.timestamps.dropWhile (fun t => t < now - l.window) ++ [now] }
      (A ++ [now]) now := by
  have hts := swts_eq l b A T now inv hT
  have hnowp : (decide (now - l.window ≤ now)) = true := decide_eq_true (by linarith)
  have hfilsing : [now].filter (fun a => decide (now - l.window ≤ a)) = [now] := by
    rw [List.filter_eq_self]
    intro a ha
    rw [List.mem_singleton] at ha
    subst ha
    simpa using hnowp
  refine ⟨?_, ?_, ?_, ?_, ?_⟩
  · simp only [swAllow]
    rw [if_neg (not_le.mpr hlen)]
  · refine List.pairwise_append.mpr ⟨inv.sortedA, List.pairwise_singleton _ _, ?_⟩
    intro a ha c hc
    rw [List.mem_singleton] at hc
    subst hc
    exact le_trans (inv.leT a ha) hT
  · intro a ha
    rcases List.mem_append.mp ha with h | h
    · exact le_trans (inv.leT a h) hT
    · rw [List.mem_singleton] at h
      subst h
      exact le_refl _
  · show b.timestamps.dropWhile (fun t => t < now - l.window) ++ [now] =
      (A ++ [now]).filter (fun a => decide (now - l.window ≤ a))
    rw [List.filter_append, ← hts, hfilsing]
  · intro s
    by_cases hin : s ≤ now ∧ now ≤ s + l.window
    · have himp : ∀ a ∈ A ++ [now],
          (decide (s ≤ a) && decide (a ≤ s + l.window)) = true →
          decide (now - l.window ≤ a) = true := by
        intro a _ hpa
        rw [Bool.and_eq_true, decide_eq_true_eq, decide_eq_true_eq] at hpa
        exact decide_eq_true (by linarith [hpa.1, hpa.2, hin.1, hin.2])
      refine le_trans (length_filter_mono _ himp) ?_
      rw [List.filter_append, ← hts, hfilsing, List.length_append]
      simpa using hlen
    · have hfalse : (decide (s ≤ now) && decide (now ≤ s + l.window)) = false := by
        rcases not_and_or.mp hin with h | h
        · rw [decide_eq_false h, Bool.false_and]
        · rw [decide_eq_false h, Bool.and_false]
      have hsing : [now].filter (fun a => decide (s ≤ a) && decide (a ≤ s + l.window)) = [] := by
        rw [List.filter_cons_of_neg (by simp [hfalse])]
        rfl
      rw [List.filter_append, hsing, List.append_nil]
      exact inv.bounded s

theorem swInv_deny (l : localSlidingWindow) (b : swBucket) (A : List ℚ) (T now : ℚ)
    (inv : SWInv l b A T) (hT : T ≤ now) (hw : 0 ≤ l.window) (hr : 0 < l.rate)
    (hlen : l.rate ≤ (b.timestamps.dropWhile (fun t => t < now - l.window)).length) :
    swAllow l b now =
      (some { retryAfter :=
          (b.timestamps.dropWhile (fun t => t < now - l.window)).headD 0 + l.window - now },
       { timestamps := b.timestamps.dropWhile (fun t => t < now - l.window) }) ∧
    SWInv l { timestamps := b.timestamps.dropWhile (fun t => t < now - l.window) } A now ∧
    0 ≤ (b.timestamps.dropWhile (fun t => t < now - l.window)).headD 0 + l.window - now ∧
    (b.timestamps.dropWhile (fun t => t < now - l.window)).headD 0 + l.window - now ≤ l.window := by
  have hts := swts_eq l b A T now inv hT
  have hmemD : (b.timestamps.dropWhile (fun t => t < now - l.window)).headD 0 ∈
      b.timestamps.dropWhile (fun t => t < now - l.window) := by
    cases hcase : b.timestamps.dropWhile (fun t => t < now - l.window) with
    | nil =>
      exfalso
      rw [hcase] at hlen
      simp at hlen
      omega
    | cons h0 rest =>
      simp
  have hbounds : ∀ x ∈ b.timestamps.dropWhile (fun t => t < now - l.window),
      now - l.window ≤ x ∧ x ≤ now := by
    intro x hx
    rw [hts, List.mem_filter] at hx
    exact ⟨of_decide_eq_true hx.2, le_trans (inv.leT x hx.1) hT⟩
  obtain ⟨hlow, hup⟩ := hbounds _ hmemD
  refine ⟨?_,
    ⟨inv.sortedA, fun a ha => le_trans (inv.leT a ha) hT, hts, inv.bounded⟩,
    by linarith, by linarith⟩
  simp only [swAllow]
  rw [if_pos hlen]

theorem swRun_bounded (l : localSlidingWindow) (hr : 0 < l.rate) (hw : 0 ≤ l.window)
    (trace : List ℚ) :
    ∀ (b : swBucket) (A : List ℚ) (T : ℚ),
      SWInv l b A T → trace.Sorted (· ≤ ·) → (∀ t ∈ trace, T ≤ t) →
      (∀ s : ℚ, ((A ++ swAdmitted l b trace).filter
          (fun a => decide (s ≤ a) && decide (a ≤ s + l.window))).length ≤ l.rate) ∧
      (∀ q : ErrRateLimited, some q ∈ (swRun l b trace).2 →
        0 ≤ q.retryAfter ∧ q.retryAfter ≤ l.window) := by
  induction trace with
  | nil =>
    intro b A T inv _ _
    refine ⟨fun s => ?_, fun q hq => ?_⟩
    · rw [show swAdmitted l b [] = [] from rfl, List.append_nil]
      exact inv.bounded s
    · rw [show (swRun l b []).2 = [] from rfl] at hq
      exact absurd hq (List.not_mem_nil _)
  | cons t ts ih =>
    intro b A T inv hsort hge
    have hT : T ≤ t := hge t (List.mem_cons_self t ts)
    rcases List.sorted_cons.mp hsort with ⟨hhead, htail⟩
    by_cases hlen : l.rate ≤ (b.timestamps.dropWhile (fun u => u < t - l.window)).length
    · obtain ⟨heq, inv2, hq0, hqw⟩ := swInv_deny l b A T t inv hT hw hr hlen
      obtain ⟨ihb, ihq⟩ := ih { timestamps := b.timestamps.dropWhile (fun u => u < t - l.window) }
        A t inv2 htail hhead
      have hadm : swAdmitted l b (t :: ts) =
          swAdmitted l { timestamps := b.timestamps.dropWhile (fun u => u < t - l.window) } ts := by
        simp only [swAdmitted, heq]
      have hrun : (swRun l b (t :: ts)).2 =
          some { retryAfter :=
            (b.timestamps.dropWhile (fun u => u < t - l.window)).headD 0 + l.window - t } ::
          (swRun l { timestamps := b.timestamps.dropWhile (fun u => u < t - l.window) } ts).2 := by
        simp only [swRun, heq]
      refine ⟨fun s => ?_, fun q hq => ?_⟩
      · rw [hadm]
        exact ihb s
      · rw [hrun] at hq
        rcases List.mem_cons.mp hq with h | h
        · rw [Option.some.injEq] at h
          subst h
          exact ⟨hq0, hqw⟩
        · exact ihq q h
    · obtain ⟨heq, inv2⟩ := swInv_admit l b A T t inv hT hw (not_le.mp hlen)
      obtain ⟨ihb, ihq⟩ := ih
        { timestamps := b.timestamps.dropWhile (fun u => u < t - l.window) ++ [t] }
        (A ++ [t]) t inv2 htail hhead
      have hadm : swAdmitted l b (t :: ts) = t ::
          swAdmitted l { timestamps := b.timestamps.dropWhile (fun u => u < t - l.window) ++ [t] } ts := by
        simp only [swAdmitted, heq]
      have hrun : (swRun l b (t :: ts)).2 = none ::
          (swRun l { timestamps := b.timestamps.dropWhile (fun u => u < t - l.window) ++ [t] } ts).2 := by
        simp only [swRun, heq]
      refine ⟨fun s => ?_, fun q hq => ?_⟩
      · rw [hadm, show A ++ t ::
            swAdmitted l { timestamps := b.timestamps.dropWhile (fun u => u < t - l.window) ++ [t] } ts =
            (A ++ [t]) ++
            swAdmitted l { timestamps := b.timestamps.dropWhile (fun u => u < t - l.window) ++ [t] } ts from by
          rw [List.append_assoc]
          rfl]
        exact ihb s
      · rw [hrun] at hq
        rcases List.mem_cons.mp hq with h | h
        · exact absurd h (by simp)
        · exact ihq q h

/-- Claim C6: one `Allow` of the local sliding window first evicts queued
timestamps older than `now - window`; with at least `rate` remaining it
denies with `retry_after = (oldest + window) - now`, else it appends `now`
and admits.  Consequently, over any monotone trace served from a fresh
bucket, at most `rate` requests are admitted within any window-length
interval, and every denied retry_after lies in `[0, window]`. -/
theorem claim_C6 (l : localSlidingWindow) (b : swBucket) (now : ℚ) (trace : List ℚ)
    (hr : 0 < l.rate) (hw : 0 ≤ l.window) (htrace : trace.Sorted (· ≤ ·)) :
    (l.rate ≤ (b.timestamps.dropWhile (fun u => u < now - l.window)).length →
      swAllow l b now =
        (some { retryAfter :=
            (b.timestamps.dropWhile (fun u => u < now - l.window)).headD 0 + l.window - now },
         { timestamps := b.timestamps.dropWhile (fun u => u < now - l.window) })) ∧
    ((b.timestamps.dropWhile (fun u => u < now - l.window)).length < l.rate →
      swAllow l b now =
        (none, { timestamps := b.timestamps.dropWhile (fun u => u < now - l.window) ++ [now] })) ∧
    (∀ s : ℚ, ((swAdmitted l { timestamps := [] } trace).filter
        (fun a => decide (s ≤ a) && decide (a ≤ s + l.window))).length ≤ l.rate) ∧
    (∀ q : ErrRateLimited, some q ∈ (swRun l { timestamps := [] } trace).2 →
      0 ≤ q.retryAfter ∧ q.retryAfter ≤ l.window) := by
  have hboth : (∀ s : ℚ, ((swAdmitted l { timestamps := [] } trace).filter
        (fun a => decide (s ≤ a) && decide (a ≤ s + l.window))).length ≤ l.rate) ∧
      (∀ q : ErrRateLimited, some q ∈ (swRun l { timestamps := [] } trace).2 →
        0 ≤ q.retryAfter ∧ q.retryAfter ≤ l.window) := by
    cases trace with
    | nil =>
      refine ⟨fun s => ?_, fun q hq => ?_⟩
      · rw [show swAdmitted l { timestamps := [] } [] = [] from rfl]
        simp
      · rw [show (swRun l { timestamps := [] } []).2 = [] from rfl] at hq
        exact absurd hq (List.not_mem_nil _)
    | cons t0 tt =>
      have inv0 : SWInv l { timestamps := [] } [] t0 :=
        ⟨List.sorted_nil, fun a ha => absurd ha (List.not_mem_nil a), rfl,
         fun s => by simp⟩
      have hge : ∀ u ∈ t0 :: tt, t0 ≤ u := by
        intro u hu
        rcases List.mem_cons.mp hu with h | h
        · subst h
          exact le_refl _
        · exact (List.sorted_cons.mp htrace).1 u h
      have := swRun_bounded l hr hw (t0 :: tt) { timestamps := [] } [] t0 inv0 htrace hge
      simpa using this
  refine ⟨fun h => ?_, fun h => ?_, hboth.1, hboth.2⟩
  · simp only [swAllow]
    rw [if_pos h]
  · simp only [swAllow]
    rw [if_neg (not_le.mpr h)]

theorem claim_C6_witness :
    ((swAdmitted demoSW { timestamps := [] } [0, 1, 2]).filter
        (fun a => decide ((0 : ℚ) ≤ a) && decide (a ≤ (0 : ℚ) + demoSW.window))).length ≤
      demoSW.rate :=
  (claim_C6 demoSW { timestamps := [] } 0 [0, 1, 2] (by norm_num [demoSW])
    (by norm_num [demoSW])
    (by norm_num [List.sorted_cons])).2.2.1 0

end ratelimiter

namespace loadbalancer

theorem firstMaxFold_spec_acc {α β : Type} [LinearOrder β] (p : α → Bool) (k : α → β) :
    ∀ (l : List α) (bi : Nat) (bx : α) (idx : Nat),
      (firstMaxFold p k l (some (bi, bx)) idx = some (bi, bx) ∧
        ∀ y ∈ l, p y = true → k y ≤ k bx) ∨
      (∃ l1 x l2, l = l1 ++ x :: l2 ∧ p x = true ∧ k bx < k x ∧
        firstMaxFold p k l (some (bi, bx)) idx = some (idx + l1.length, x) ∧
        (∀ y ∈ l1, p y = true → k y < k x) ∧
        (∀ y ∈ l2, p y = true → k y ≤ k x)) := by
  intro l
  induction l with
  | nil =>
    intro bi bx idx
    left
    exact ⟨rfl, fun y hy => absurd hy (List.not_mem_nil y)⟩
  | cons a as ih =>
    intro bi bx idx
    by_cases pa : p a = true
    · by_cases hka : k bx < k a
      · have hstep : firstMaxFold p k (a :: as) (some (bi, bx)) idx =
            firstMaxFold p k as (some (idx, a)) (idx + 1) := by
          simp only [firstMaxFold, firstMaxStep, pa, if_true]
          rw [if_pos hka]
        rcases ih idx a (idx + 1) with ⟨heq, hall⟩ | ⟨l1, x, l2, hsplit, px, hkx, heq, h1, h2⟩
        · right
          refine ⟨[], a, as, rfl, pa, hka, ?_, ?_, hall⟩
          · rw [hstep, heq]
            simp
          · intro y hy
            exact absurd hy (List.not_mem_nil y)
        · right
          refine ⟨a :: l1, x, l2, by rw [hsplit]; rfl, px, lt_trans hka hkx, ?_, ?_, h2⟩
          · rw [hstep, heq]
            congr 2
            simp
            omega
          · intro y hy
            rcases List.mem_cons.mp hy with h | h
            · subst h
              intro _
              exact hkx
            · exact h1 y h
      · have hstep : firstMaxFold p k (a :: as) (some (bi, bx)) idx =
            firstMaxFold p k as (some (bi, bx)) (idx + 1) := by
          simp only [firstMaxFold, firstMaxStep, pa, if_true]
          rw [if_neg hka]
        rcases ih bi bx (idx + 1) with ⟨heq, hall⟩ | ⟨l1, x, l2, hsplit, px, hkx, heq, h1, h2⟩
        · left
          refine ⟨by rw [hstep, heq], ?_⟩
          intro y hy
          rcases List.mem_cons.mp hy with h | h
          · subst h
            intro _
            exact not_lt.mp hka
          · exact hall y h
        · right
          refine ⟨a :: l1, x, l2, by rw [hsplit]; rfl, px, hkx, ?_, ?_, h2⟩
          · rw [hstep, heq]
            congr 2
            simp
            omega
          · intro y hy
            rcases List.mem_cons.mp hy with h | h
            · subst h
              intro _
              exact lt_of_le_of_lt (not_lt.mp hka) hkx
            · exact h1 y h
    · have hstep : firstMaxFold p k (a :: as) (some (bi, bx)) idx =
          firstMaxFold p k as (some (bi, bx)) (idx + 1) := by
        simp only [firstMaxFold]
        rw [if_neg pa]
      rcases ih bi bx (idx + 1) with ⟨heq, hall⟩ | ⟨l1, x, l2, hsplit, px, hkx, heq, h1, h2⟩
      · left
        refine ⟨by rw [hstep, heq], ?_⟩
        intro y hy
        rcases List.mem_cons.mp hy with h | h
        · subst h
          intro hpy
          exact absurd hpy pa
        · exact hall y h
      · right
        refine ⟨a :: l1, x, l2, by rw [hsplit]; rfl, px, hkx, ?_, ?_, h2⟩
        · rw [hstep, heq]
          congr 2
          simp
          omega
        · intro y hy
          rcases List.mem_cons.mp hy with h | h
          · subst h
            intro hpy
            exact absurd hpy pa
          · exact h1 y h

theorem firstMaxFold_spec_none {α β : Type} [LinearOrder β] (p : α → Bool) (k : α → β) :
    ∀ (l : List α) (idx : Nat),
      (firstMaxFold p k l none idx = none ∧ ∀ y ∈ l, p y = false) ∨
      (∃ l1 x l2, l = l1 ++ x :: l2 ∧ p x = true ∧
        firstMaxFold p k l none idx = some (idx + l1.length, x) ∧
        (∀ y ∈ l1, p y = true → k y < k x) ∧
        (∀ y ∈ l2, p y = true → k y ≤ k x)) := by
  intro l
  induction l with
  | nil =>
    intro idx
    left
    exact ⟨rfl, fun y hy => absurd hy (List.not_mem_nil y)⟩
  | cons a as ih =>
    intro idx
    by_cases pa : p a = true
    · have hstep : firstMaxFold p k (a :: as) none idx =
          firstMaxFold p k as (some (idx, a)) (idx + 1) := by
        simp only [firstMaxFold, pa, if_true]
        rfl
      rcases firstMaxFold_spec_acc p k as idx a (idx + 1) with
        ⟨heq, hall⟩ | ⟨l1, x, l2, hsplit, px, hkx, heq, h1, h2⟩
      · right
        refine ⟨[], a, as, rfl, pa, ?_, ?_, hall⟩
        · rw [hstep, heq]
          simp
        · intro y hy
          exact absurd hy (List.not_mem_nil y)
      · right
        refine ⟨a :: l1, x, l2, by rw [hsplit]; rfl, px, ?_, ?_, h2⟩
        · rw [hstep, heq]
          congr 2
          simp
          omega
        · intro y hy
          rcases List.mem_cons.mp hy with h | h
          · subst h
            intro _
            exact hkx
          · exact h1 y h
    · have hstep : firstMaxFold p k (a :: as) none idx =
          firstMaxFold p k as none (idx + 1) := by
        simp only [firstMaxFold]
        rw [if_neg pa]
      rcases ih (idx + 1) with ⟨heq, hall⟩ | ⟨l1, x, l2, hsplit, px, heq, h1, h2⟩
      · left
        refine ⟨by rw [hstep, heq], ?_⟩
        intro y hy
        rcases List.mem_cons.mp hy with h | h
        · subst h
          exact Bool.eq_false_iff.mpr (fun hc => pa hc)
        · exact hall y h
      · right
        refine ⟨a :: l1, x, l2, by rw [hsplit]; rfl, px, ?_, ?_, h2⟩
        · rw [hstep, heq]
          congr 2
          simp
          omega
        · intro y hy
          rcases List.mem_cons.mp hy with h | h
          · subst h
            intro hpy
            exact absurd hpy pa
          · exact h1 y h

theorem weightedLoop_eq :
    ∀ (bs : List wBackend) (total : Int) (best : Option (Nat × wBackend)) (idx : Nat),
      weightedLoop bs total best idx =
        (updCurrents bs, total + aliveTotal bs,
         firstMaxFold (fun c => c.backend.alive) (fun c => c.current) (updCurrents bs) best idx) := by
  intro bs
  induction bs with
  | nil =>
    intro total best idx
    simp [weightedLoop, updCurrents, aliveTotal, firstMaxFold]
  | cons b rest ih =>
    intro total best idx
    by_cases hb : b.backend.alive = true
    · have hloop : weightedLoop (b :: rest) total best idx =
          ({ b with current := b.current + b.backend.weight } ::
             (weightedLoop rest (total + b.backend.weight)
               (firstMaxStep (fun c => c.backend.alive) (fun c => c.current)
                 { b with current := b.current + b.backend.weight } idx best) (idx + 1)).1,
           (weightedLoop rest (total + b.backend.weight)
               (firstMaxStep (fun c => c.backend.alive) (fun c => c.current)
                 { b with current := b.current + b.backend.weight } idx best) (idx + 1)).2.1,
           (weightedLoop rest (total + b.backend.weight)
               (firstMaxStep (fun c => c.backend.alive) (fun c => c.current)
                 { b with current := b.current + b.backend.weight } idx best) (idx + 1)).2.2) := by
        simp only [weightedLoop]
        rw [if_pos hb]
      have hcons : updCurrents (b :: rest) =
          { b with current := b.current + b.backend.weight } :: updCurrents rest := by
        simp [updCurrents, hb]
      have htot : aliveTotal (b :: rest) = b.backend.weight + aliveTotal rest := by
        simp [aliveTotal, List.filter_cons, hb]
      have hfold : firstMaxFold (fun c => c.backend.alive) (fun c => c.current)
          ({ b with current := b.current + b.backend.weight } :: updCurrents rest) best idx =
          firstMaxFold (fun c => c.backend.alive) (fun c => c.current) (updCurrents rest)
            (firstMaxStep (fun c => c.backend.alive) (fun c => c.current)
              { b with current := b.current + b.backend.weight } idx best) (idx + 1) := by
        simp only [firstMaxFold]
        rw [if_pos]
        exact hb
      rw [hloop, ih, hcons, htot, hfold]
      rw [show total + b.backend.weight + aliveTotal rest =
        total + (b.backend.weight + aliveTotal rest) from by ring]
    · have hb' : b.backend.alive = false := by
        cases hba : b.backend.alive
        · rfl
        · exact absurd hba hb
      have hloop : weightedLoop (b :: rest) total best idx =
          (b :: (weightedLoop rest total best (idx + 1)).1,
           (weightedLoop rest total best (idx + 1)).2.1,
           (weightedLoop rest total best (idx + 1)).2.2) := by
        simp only [weightedLoop]
        rw [if_neg hb]
      have hcons : updCurrents (b :: rest) = b :: updCurrents rest := by
        simp [updCurrents, hb']
      have hfold : firstMaxFold (fun c => c.backend.alive) (fun c => c.current)
          (b :: updCurrents rest) best idx =
          firstMaxFold (fun c => c.backend.alive) (fun c => c.current) (updCurrents rest)
            best (idx + 1) := by
        simp only [firstMaxFold]
        rw [if_neg]
        simp [hb']
      have htot : aliveTotal (b :: rest) = aliveTotal rest := by
        simp [aliveTotal, List.filter_cons, hb']
      rw [hloop, ih, hcons, htot, hfold]

theorem modifyIdx_append (f : wBackend → wBackend) :
    ∀ (l1 : List wBackend) (x : wBackend) (l2 : List wBackend),
      modifyIdx (l1 ++ x :: l2) l1.length f = l1 ++ f x :: l2
  | [], x, l2 => rfl
  | y :: ys, x, l2 => by
    show y :: modifyIdx (ys ++ x :: l2) ys.length f = y :: (ys ++ f x :: l2)
    rw [modifyIdx_append f ys x l2]

theorem weightedStateN_add (bs : List wBackend) (m : Nat) :
    ∀ n : Nat, weightedStateN bs (m + n) = weightedStateN (weightedStateN bs m) n
  | 0 => rfl
  | n + 1 => by
    show (weightedNext (weightedStateN bs (m + n))).2 = (weightedNext (weightedStateN (weightedStateN bs m) n)).2
    rw [weightedStateN_add bs m n]

theorem demo_state7 : weightedStateN demoWeighted 7 = demoWeighted := rfl

theorem demo_sel_period (n : Nat) :
    weightedSelN demoWeighted (n + 7) = weightedSelN demoWeighted n := by
  show (weightedNext (weightedStateN demoWeighted (n + 7))).1 =
    (weightedNext (weightedStateN demoWeighted n)).1
  rw [Nat.add_comm n 7, weightedStateN_add demoWeighted 7 n, demo_state7]

theorem demo_countSel_succ (j i : Nat) :
    countSel demoWeighted (j + 1) i = countSel demoWeighted j i := by
  have hper : weightedSelN demoWeighted (j + 7) = weightedSelN demoWeighted j :=
    demo_sel_period j
  have e1 : countSel demoWeighted (j + 1) i = List.countP (fun e => selEq e i)
      [weightedSelN demoWeighted (j + 1), weightedSelN demoWeighted (j + 2),
       weightedSelN demoWeighted (j + 3), weightedSelN demoWeighted (j + 4),
       weightedSelN demoWeighted (j + 5), weightedSelN demoWeighted (j + 6),
       weightedSelN demoWeighted (j + 7)] := rfl
  have e0 : countSel demoWeighted j i = List.countP (fun e => selEq e i)
      [weightedSelN demoWeighted j, weightedSelN demoWeighted (j + 1),
       weightedSelN demoWeighted (j + 2), weightedSelN demoWeighted (j + 3),
       weightedSelN demoWeighted (j + 4), weightedSelN demoWeighted (j + 5),
       weightedSelN demoWeighted (j + 6)] := rfl
  rw [e1, e0, hper]
  simp only [List.countP_cons, List.countP_nil]
  omega

theorem demo_countSel_const (i : Nat) :
    ∀ j : Nat, countSel demoWeighted j i = countSel demoWeighted 0 i
  | 0 => rfl
  | j + 1 => by rw [demo_countSel_succ j i, demo_countSel_const i j]

/-- Claim C7: `weighted.Next` adds each alive weight to its `current` and to
`total`, selects the first backend of greatest `current`, subtracts `total`
from the selection, and returns it (failing with `ErrNoHealthyBackend` when
nothing is alive); with always-alive weights 5, 1, 1 and counters 0 the
selection sequence is A,A,B,A,C,A,A with period 7, so every consecutive
window of 7 selections picks A five times and B and C once each. -/
theorem claim_C7 :
    (∀ bs : List wBackend,
      ((∀ y ∈ bs, y.backend.alive = false) →
        weightedNext bs = (.error .errNoHealthyBackend, updCurrents bs)) ∧
      (∀ (i : Nat) (bs2 : List wBackend), weightedNext bs = (.ok i, bs2) →
        ∃ l1 x l2, updCurrents bs = l1 ++ x :: l2 ∧ i = l1.length ∧
          x.backend.alive = true ∧
          (∀ y ∈ l1, y.backend.alive = true → y.current < x.current) ∧
          (∀ y ∈ l2, y.backend.alive = true → y.current ≤ x.current) ∧
          bs2 = l1 ++ { x with current := x.current - aliveTotal bs } :: l2)) ∧
    ((List.range 7).map (weightedSelN demoWeighted) =
      [.ok 0, .ok 0, .ok 1, .ok 0, .ok 2, .ok 0, .ok 0]) ∧
    (∀ n : Nat, weightedSelN demoWeighted (n + 7) = weightedSelN demoWeighted n) ∧
    (∀ j : Nat, countSel demoWeighted j 0 = 5 ∧ countSel demoWeighted j 1 = 1 ∧
      countSel demoWeighted j 2 = 1) := by
  refine ⟨?_, rfl, demo_sel_period, ?_⟩
  · intro bs
    constructor
    · intro hdead
      have hall : ∀ y ∈ updCurrents bs, (fun c => c.backend.alive) y = false := by
        intro y hy
        rcases List.mem_map.mp hy with ⟨z, hz, hzy⟩
        subst hzy
        have hz' := hdead z hz
        simp [hz']
      have hnone : firstMaxFold (fun c => c.backend.alive) (fun c => c.current)
          (updCurrents bs) none 0 = none := by
        rcases firstMaxFold_spec_none (fun c => c.backend.alive) (fun c => c.current)
            (updCurrents bs) 0 with ⟨heq, _⟩ | ⟨l1, x, l2, hsplit, px, _, _, _⟩
        · exact heq
        · exfalso
          have hx : x ∈ updCurrents bs := by
            rw [hsplit]
            exact List.mem_append_right _ (List.mem_cons_self x l2)
          have hxf : x.backend.alive = false := by
            have := hall x hx
            simpa using this
          rw [hxf] at px
          exact Bool.false_ne_true px
      simp only [weightedNext, weightedLoop_eq, hnone]
    · intro i bs2 hok
      rcases firstMaxFold_spec_none (fun c => c.backend.alive) (fun c => c.current)
          (updCurrents bs) 0 with ⟨heq, _⟩ | ⟨l1, x, l2, hsplit, px, heq, h1, h2⟩
      · exfalso
        simp only [weightedNext, weightedLoop_eq, heq] at hok
        exact absurd hok (by simp)
      · have hnext : weightedNext bs = (.ok (0 + l1.length),
            modifyIdx (updCurrents bs) (0 + l1.length)
              (fun b => { b with current := b.current - (0 + aliveTotal bs) })) := by
          simp only [weightedNext, weightedLoop_eq, heq]
        rw [hnext, Prod.mk.injEq] at hok
        obtain ⟨hfst, hsnd⟩ := hok
        rw [Except.ok.injEq] at hfst
        have hi : i = l1.length := by omega
        have hbs2 : bs2 = modifyIdx (updCurrents bs) l1.length
            (fun b => { b with current := b.current - aliveTotal bs }) := by
          rw [← hsnd]
          norm_num
        refine ⟨l1, x, l2, hsplit, hi, px, h1, h2, ?_⟩
        rw [hbs2, hsplit, modifyIdx_append]
  · intro j
    rw [demo_countSel_const 0 j, demo_countSel_const 1 j, demo_countSel_const 2 j]
    exact ⟨rfl, rfl, rfl⟩

theorem claim_C7_witness :
    weightedNext demoDead = (.error .errNoHealthyBackend, updCurrents demoDead) :=
  (claim_C7.1 demoDead).1 (by decide)

end loadbalancer

namespace proxy

open circuitbreaker loadbalancer

theorem matchLoop_eq_firstMaxFold (path : String) :
    ∀ (l : List Route) (idx : Nat),
      (matchLoop path l none = (firstMaxFold (fun rt => strHasPfx rt.pfx path)
          (fun rt => rt.pfx.length) l none idx).map Prod.snd) ∧
      (∀ (m : Route) (bi : Nat), matchLoop path l (some m) =
        (firstMaxFold (fun rt => strHasPfx rt.pfx path)
          (fun rt => rt.pfx.length) l (some (bi, m)) idx).map Prod.snd) := by
  intro l
  induction l with
  | nil =>
    intro idx
    exact ⟨rfl, fun m bi => rfl⟩
  | cons rt rest ih =>
    intro idx
    by_cases hp : strHasPfx rt.pfx path = true
    · constructor
      · have h1 : matchLoop path (rt :: rest) none = matchLoop path rest (some rt) := by
          simp only [matchLoop, hp, if_true]
        have h2 : firstMaxFold (fun rt => strHasPfx rt.pfx path)
            (fun rt => rt.pfx.length) (rt :: rest) none idx =
            firstMaxFold (fun rt => strHasPfx rt.pfx path)
              (fun rt => rt.pfx.length) rest (some (idx, rt)) (idx + 1) := by
          simp only [firstMaxFold, hp, if_true]
          rfl
        rw [h1, h2]
        exact (ih (idx + 1)).2 rt idx
      · intro m bi
        by_cases hlen : rt.pfx.length > m.pfx.length
        · have h1 : matchLoop path (rt :: rest) (some m) = matchLoop path rest (some rt) := by
            simp only [matchLoop, hp, if_true]
            rw [if_pos hlen]
          have h2 : firstMaxFold (fun rt => strHasPfx rt.pfx path)
              (fun rt => rt.pfx.length) (rt :: rest) (some (bi, m)) idx =
              firstMaxFold (fun rt => strHasPfx rt.pfx path)
                (fun rt => rt.pfx.length) rest (some (idx, rt)) (idx + 1) := by
            simp only [firstMaxFold, firstMaxStep, hp, if_true]
            rw [if_pos hlen]
          rw [h1, h2]
          exact (ih (idx + 1)).2 rt idx
        · have h1 : matchLoop path (rt :: rest) (some m) = matchLoop path rest (some m) := by
            simp only [matchLoop, hp, if_true]
            rw [if_neg hlen]
          have h2 : firstMaxFold (fun rt => strHasPfx rt.pfx path)
              (fun rt => rt.pfx.length) (rt :: rest) (some (bi, m)) idx =
              firstMaxFold (fun rt => strHasPfx rt.pfx path)
                (fun rt => rt.pfx.length) rest (some (bi, m)) (idx + 1) := by
            simp only [firstMaxFold, firstMaxStep, hp, if_true]
            rw [if_neg hlen]
          rw [h1, h2]
          exact (ih (idx + 1)).2 m bi
    · have h1 : ∀ acc, matchLoop path (rt :: rest) acc = matchLoop path rest acc := by
        intro acc
        simp only [matchLoop]
        rw [if_neg hp]
      have h2 : ∀ acc, firstMaxFold (fun rt => strHasPfx rt.pfx path)
          (fun rt => rt.pfx.length) (rt :: rest) acc idx =
          firstMaxFold (fun rt => strHasPfx rt.pfx path)
            (fun rt => rt.pfx.length) rest acc (idx + 1) := by
        intro acc
        simp only [firstMaxFold]
        rw [if_neg hp]
      refine ⟨?_, fun m bi => ?_⟩
      · rw [h1, h2]
        exact (ih (idx + 1)).1
      · rw [h1, h2]
        exact (ih (idx + 1)).2 m bi

/-- Claim C8: the dispatcher selects, among the routes whose prefix is a
prefix of the request path, the one with the greatest prefix length, ties
broken by configuration order (every earlier matching route is strictly
shorter, every later one no longer); when no prefix matches it returns the
404 outcome, which invokes no route handler and hence no rate-limit,
balancer or breaker action. -/
theorem claim_C8 (gw : Gateway) (path : String) :
    ((∀ rt ∈ gw.routes, strHasPfx rt.pfx path = false) →
      gw.ServeHTTP path = .notFound) ∧
    (∀ rt : Route, gw.ServeHTTP path = .routed rt →
      strHasPfx rt.pfx path = true ∧
      (∀ r ∈ gw.routes, strHasPfx r.pfx path = true → r.pfx.length ≤ rt.pfx.length) ∧
      ∃ l1 l2, gw.routes = l1 ++ rt :: l2 ∧
        (∀ r ∈ l1, strHasPfx r.pfx path = true → r.pfx.length < rt.pfx.length) ∧
        (∀ r ∈ l2, strHasPfx r.pfx path = true → r.pfx.length ≤ rt.pfx.length)) := by
  have hml := (matchLoop_eq_firstMaxFold path gw.routes 0).1
  constructor
  · intro hnone
    have hfold : firstMaxFold (fun rt => strHasPfx rt.pfx path)
        (fun rt => rt.pfx.length) gw.routes none 0 = none := by
      rcases firstMaxFold_spec_none (fun rt => strHasPfx rt.pfx path)
          (fun rt => rt.pfx.length) gw.routes 0 with ⟨heq, _⟩ | ⟨l1, x, l2, hsplit, px, _, _, _⟩
      · exact heq
      · exfalso
        have hx : x ∈ gw.routes := by
          rw [hsplit]
          exact List.mem_append_right _ (List.mem_cons_self x l2)
        rw [hnone x hx] at px
        exact Bool.false_ne_true px
    show (match matchLoop path gw.routes none with
      | none => ServeOutcome.notFound
      | some rt => ServeOutcome.routed rt) = ServeOutcome.notFound
    rw [hml, hfold]
    rfl
  · intro rt hrt
    rcases firstMaxFold_spec_none (fun r => strHasPfx r.pfx path)
        (fun r => r.pfx.length) gw.routes 0 with ⟨heq, _⟩ | ⟨l1, x, l2, hsplit, px, heq, h1, h2⟩
    · exfalso
      have : gw.ServeHTTP path = .notFound := by
        show (match matchLoop path gw.routes none with
          | none => ServeOutcome.notFound
          | some r => ServeOutcome.routed r) = ServeOutcome.notFound
        rw [hml, heq]
        rfl
      rw [this] at hrt
      exact absurd hrt (by simp)
    · have hserve : gw.ServeHTTP path = .routed x := by
        show (match matchLoop path gw.routes none with
          | none => ServeOutcome.notFound
          | some r => ServeOutcome.routed r) = ServeOutcome.routed x
        rw [hml, heq]
        rfl
      rw [hserve] at hrt
      have hx : rt = x := by
        cases hrt
        rfl
      subst hx
      refine ⟨px, ?_, l1, l2, hsplit, h1, h2⟩
      intro r hr hmatch
      rw [hsplit] at hr
      rcases List.mem_append.mp hr with h | h
      · exact le_of_lt (h1 r h hmatch)
      · rcases List.mem_cons.mp h with h | h
        · subst h
          exact le_refl _
        · exact h2 r h hmatch

theorem claim_C8_witness : demoGateway.ServeHTTP "/metrics" = .notFound :=
  (claim_C8 demoGateway "/metrics").1 (by decide)

/-- Claim C1 (code bug): `Gateway.Reload` does not reuse the old Backend
record or Breaker keyed by `(route_prefix, backend_url)`; `buildRoute`
constructs fresh ones from the configuration alone.  Reloading the very
same config while the `("/api", "http://a")` breaker is Open and the
backend is marked dead yields a fresh Closed breaker and an alive backend:
the `alive` flag and the breaker state do not survive the reload. -/
theorem claim_C1 :
    trippedBreaker.state = .stateOpen ∧
    (demoOldGateway.routes.headD (buildRoute demoRouteCfg)).pfx = "/api" ∧
    ((demoOldGateway.routes.headD (buildRoute demoRouteCfg)).breakers.lookup "http://a" =
      some (some trippedBreaker)) ∧
    ((demoOldGateway.routes.headD (buildRoute demoRouteCfg)).lbBackends =
      [{ url := "http://a", weight := 2, alive := false, inflight := 0 }]) ∧
    (((demoOldGateway.Reload [demoRouteCfg]).routes.headD (buildRoute demoRouteCfg)).breakers.lookup
        "http://a" = some (some (Breaker.new defaultCBConfig))) ∧
    (Breaker.new defaultCBConfig).state = .stateClosed ∧
    (((demoOldGateway.Reload [demoRouteCfg]).routes.headD (buildRoute demoRouteCfg)).lbBackends =
      [{ url := "http://a", weight := 2, alive := true, inflight := 0 }]) := by
  refine ⟨by decide, rfl, rfl, rfl, rfl, rfl, rfl⟩

/-- Claim C10: `ModifyResponse` sets the `X-Gateway-Backend` header to the
selected backend URL on every upstream response, for every status code —
including those with status ≥ 500 (where it also records a breaker failure
and marks the backend dead). -/
theorem claim_C10 (cb : Option Breaker) (backendURL : String) (statusCode now : Int) :
    modifyResponse cb backendURL statusCode now =
      (if statusCode ≥ 500 then
        { breaker := recordFailureOpt cb now, alive := false,
          gatewayBackendHeader := some backendURL }
      else
        { breaker := recordSuccessOpt cb now, alive := true,
          gatewayBackendHeader := some backendURL }) ∧
    (modifyResponse cb backendURL statusCode now).gatewayBackendHeader = some backendURL := by
  constructor
  · simp only [modifyResponse]
    split <;> rfl
  · rfl

end proxy

end GatewayPro
